import Mathlib

/-!
A verification development for the `bigint` crate: a sign-magnitude
arbitrary-precision integer skeleton with limbs in base 1,000,000,000.
The Rust source (`src/lib.rs`) provides the `BigInt` struct with
constructors `zero`, `one`, `from_i64`, the private `normalize`, and a
free function `add` on `u64`.  We embed those functions shallowly:
`u64`/`u32` values become `Nat` (with explicit `< 2^64` bounds where
overflow matters), `i64` becomes `Int` restricted to `[-2^63, 2^63)`,
and `Vec<u32>` becomes `List Nat`.
-/

/-- `const BASE: u32 = 1_000_000_000;` -/
def BASE : Nat := 1000000000

/-- `pub struct BigInt { neg: bool, digits: Vec<u32> }`;
`digits` is little endian: `digits[0]` is the least significant limb. -/
structure BigInt where
  neg : Bool
  digits : List Nat
deriving Repr, DecidableEq

/-- `BigInt::zero()`: empty limbs, `neg = false`. -/
def BigInt.zero : BigInt := ⟨false, []⟩

/-- `BigInt::one()`: limbs `[1]`, `neg = false`. -/
def BigInt.one : BigInt := ⟨false, [1]⟩

/-- The limb-extraction loop of `from_i64`:
`while x > 0 { digits.push((x % BASE) as u32); x /= BASE; }`.
Produces the base-`BASE` digits of `x`, least significant first. -/
def toDigits (x : Nat) : List Nat :=
  if h : x = 0 then []
  else x % BASE :: toDigits (x / BASE)
termination_by x
decreasing_by exact Nat.div_lt_self (Nat.pos_of_ne_zero h) (by norm_num [BASE])

/-- The trailing-zero-stripping loop of `normalize`:
`while self.digits.last().map_or(false, |&d| d == 0) { self.digits.pop() }`.
Popping from the back while the last element is zero is dropping the
longest all-zero suffix, i.e. `dropWhile (· = 0)` on the reversed list. -/
def stripTrailingZeros (l : List Nat) : List Nat :=
  (l.reverse.dropWhile (fun d => d == 0)).reverse

/-- `BigInt::normalize`: strip trailing zero limbs, then force
`neg = false` if the digit list became empty. -/
def BigInt.normalize (v : BigInt) : BigInt :=
  let digits := stripTrailingZeros v.digits
  ⟨if digits.isEmpty then false else v.neg, digits⟩

/-- `BigInt::from_i64`: zero maps to `BigInt::zero`; otherwise take the
unsigned absolute value (`v.unsigned_abs()`, which is `Int.natAbs` and
never overflows, even at `i64::MIN`), extract base-`BASE` limbs least
significant first, record `neg = (v < 0)`, and normalize. -/
def BigInt.from_i64 (v : Int) : BigInt :=
  if v = 0 then BigInt.zero
  else (BigInt.mk (decide (v < 0)) (toDigits v.natAbs)).normalize

/-- `pub fn add(left: u64, right: u64) -> u64 { left + right }`.
The native `+` on `u64` is unchecked: it overflows (a program error,
a panic under debug assertions) when the mathematical sum exceeds
`u64::MAX`, so the embedding returns `none` in that case. -/
def add (left right : Nat) : Option Nat :=
  if left + right < 2 ^ 64 then some (left + right) else none

/-- The numeric value of a little-endian limb list in base `BASE`. -/
def limbsVal : List Nat → Nat
  | [] => 0
  | d :: ds => d + BASE * limbsVal ds

/-- The signed integer a `BigInt` denotes. -/
def BigInt.toInt (v : BigInt) : Int :=
  if v.neg then -(limbsVal v.digits : Int) else (limbsVal v.digits : Int)

/-- The three representation invariants from the spec: most significant
limb (if any) nonzero, every limb in `[0, BASE)`, and empty limbs force
`neg = false`. -/
def BigInt.invariants (v : BigInt) : Prop :=
  v.digits.getLast? ≠ some 0 ∧ (∀ d ∈ v.digits, d < BASE) ∧
    (v.digits = [] → v.neg = false)

/-- Fuel-indexed version of the `from_i64` limb-extraction loop, used to
state that the loop terminates within `fuel` iterations. -/
def toDigitsFuel : Nat → Nat → List Nat
  | 0, _ => []
  | fuel + 1, x => if x = 0 then [] else x % BASE :: toDigitsFuel fuel (x / BASE)

/-- Fuel-indexed version of the `normalize` stripping loop (each
iteration pops the last element if it is zero), used to state that the
loop terminates within `fuel` iterations. -/
def stripFuel : Nat → List Nat → List Nat
  | 0, l => l
  | fuel + 1, l => if l.getLast? = some 0 then stripFuel fuel l.dropLast else l

-- ## Helper lemmas

theorem toDigits_zero : toDigits 0 = [] := by
  rw [toDigits]; simp

theorem toDigits_pos (x : Nat) (h : x ≠ 0) :
    toDigits x = x % BASE :: toDigits (x / BASE) := by
  rw [toDigits]; simp [h]

theorem limbsVal_toDigits (x : Nat) : limbsVal (toDigits x) = x := by
  induction x using Nat.strong_induction_on with
  | _ x ih =>
    by_cases h : x = 0
    · simp [h, toDigits_zero, limbsVal]
    · rw [toDigits_pos x h, limbsVal,
        ih (x / BASE) (Nat.div_lt_self (Nat.pos_of_ne_zero h) (by norm_num [BASE]))]
      exact Nat.mod_add_div x BASE

theorem toDigits_lt_base (x : Nat) : ∀ d ∈ toDigits x, d < BASE := by
  induction x using Nat.strong_induction_on with
  | _ x ih =>
    by_cases h : x = 0
    · simp [h, toDigits_zero]
    · rw [toDigits_pos x h]
      intro d hd
      rcases List.mem_cons.mp hd with h1 | h1
      · exact h1 ▸ Nat.mod_lt x (by norm_num [BASE])
      · exact ih (x / BASE)
          (Nat.div_lt_self (Nat.pos_of_ne_zero h) (by norm_num [BASE])) d h1

theorem toDigits_getLast_ne_zero (x : Nat) (h : x ≠ 0) :
    (toDigits x).getLast? ≠ some 0 := by
  induction x using Nat.strong_induction_on with
  | _ x ih =>
    rw [toDigits_pos x h]
    by_cases hq : x / BASE = 0
    · have hx : x < BASE := (Nat.div_eq_zero_iff (by norm_num [BASE])).mp hq
      rw [hq, toDigits_zero]
      simp [Nat.mod_eq_of_lt hx, h]
    · rw [toDigits_pos _ hq, List.getLast?_cons_cons, ← toDigits_pos _ hq]
      exact ih (x / BASE)
        (Nat.div_lt_self (Nat.pos_of_ne_zero h) (by norm_num [BASE])) hq

theorem toDigits_eval (x : Nat) :
    toDigits x = if x = 0 then [] else x % BASE :: toDigits (x / BASE) := by
  rw [toDigits]; split <;> simp_all

theorem stripTrailingZeros_getLast_ne_zero (l : List Nat) :
    (stripTrailingZeros l).getLast? ≠ some 0 := by
  unfold stripTrailingZeros
  rw [List.getLast?_reverse]
  have hd := List.head?_dropWhile_not (fun d => d == 0) l.reverse
  cases hh : (l.reverse.dropWhile (fun d => d == 0)).head? with
  | none => simp
  | some x =>
    rw [hh] at hd
    simp only [beq_iff_eq] at hd
    simp only [ne_eq, Option.some.injEq]
    intro hx
    rw [hx] at hd
    simp at hd

theorem stripTrailingZeros_append_replicate (l : List Nat) :
    ∃ k, l = stripTrailingZeros l ++ List.replicate k 0 := by
  have h1 := List.takeWhile_append_dropWhile (fun d => d == 0) l.reverse
  have h2 : l.reverse.takeWhile (fun d => d == 0)
      = List.replicate (l.reverse.takeWhile (fun d => d == 0)).length 0 := by
    apply List.eq_replicate_of_mem
    intro b hb
    simpa using List.mem_takeWhile_imp hb
  refine ⟨(l.reverse.takeWhile (fun d => d == 0)).length, ?_⟩
  have h3 : l = (l.reverse.dropWhile (fun d => d == 0)).reverse
      ++ (l.reverse.takeWhile (fun d => d == 0)).reverse := by
    rw [← List.reverse_append, h1, List.reverse_reverse]
  rw [stripTrailingZeros]
  conv_lhs => rw [h3]
  congr 1
  rw [h2, List.reverse_replicate, List.length_replicate]

theorem stripTrailingZeros_of_getLast (l : List Nat) (h : l.getLast? ≠ some 0) :
    stripTrailingZeros l = l := by
  unfold stripTrailingZeros
  cases hr : l.reverse with
  | nil => simpa using congrArg List.reverse hr
  | cons a t =>
    have ha : a ≠ 0 := by
      intro h0
      apply h
      rw [← List.head?_reverse, hr, h0]
      rfl
    rw [List.dropWhile_cons]
    simp only [beq_iff_eq, ha, if_false]
    rw [← hr, List.reverse_reverse]

theorem stripTrailingZeros_idem (l : List Nat) :
    stripTrailingZeros (stripTrailingZeros l) = stripTrailingZeros l :=
  stripTrailingZeros_of_getLast _ (stripTrailingZeros_getLast_ne_zero l)

theorem normalize_digits (v : BigInt) :
    v.normalize.digits = stripTrailingZeros v.digits := rfl

theorem normalize_neg (v : BigInt) :
    v.normalize.neg
      = if (stripTrailingZeros v.digits).isEmpty then false else v.neg := rfl

theorem limbsVal_append (a b : List Nat) :
    limbsVal (a ++ b) = limbsVal a + BASE ^ a.length * limbsVal b := by
  induction a with
  | nil => simp [limbsVal]
  | cons d ds ih =>
    simp only [List.cons_append, limbsVal, List.length_cons, List.append_eq]
    rw [ih]
    ring

theorem limbsVal_replicate_zero (k : Nat) :
    limbsVal (List.replicate k 0) = 0 := by
  induction k with
  | zero => rfl
  | succ n ih => simp [List.replicate_succ, limbsVal, ih]

theorem stripTrailingZeros_concat_zero (l : List Nat) :
    stripTrailingZeros (l ++ [0]) = stripTrailingZeros l := by
  unfold stripTrailingZeros
  rw [List.reverse_append]
  simp [List.dropWhile_cons]

theorem toDigitsFuel_eq (fuel : Nat) : ∀ x : Nat, x ≤ fuel →
    toDigitsFuel fuel x = toDigits x := by
  induction fuel with
  | zero =>
    intro x hx
    have h0 : x = 0 := Nat.le_zero.mp hx
    rw [h0, toDigits_zero]
    rfl
  | succ n ih =>
    intro x hx
    by_cases h : x = 0
    · rw [h, toDigits_zero]
      simp [toDigitsFuel]
    · rw [toDigits_pos x h]
      simp only [toDigitsFuel, h, if_false]
      rw [ih (x / BASE) (Nat.lt_succ_iff.mp
        (Nat.lt_of_lt_of_le
          (Nat.div_lt_self (Nat.pos_of_ne_zero h) (by norm_num [BASE])) hx))]

theorem stripFuel_eq (fuel : Nat) : ∀ l : List Nat, l.length ≤ fuel →
    stripFuel fuel l = stripTrailingZeros l := by
  induction fuel with
  | zero =>
    intro l hl
    have h0 : l = [] := List.eq_nil_of_length_eq_zero (Nat.le_zero.mp hl)
    rw [h0]
    rfl
  | succ n ih =>
    intro l hl
    by_cases h0 : l.getLast? = some 0
    · have hne : l ≠ [] := by
        intro h
        rw [h] at h0
        simp at h0
      have hg : l.getLast hne = 0 := by
        have := List.getLast?_eq_getLast l hne
        rw [this] at h0
        exact Option.some.inj h0
      have hdec : l = l.dropLast ++ [0] := by
        conv_lhs => rw [← List.dropLast_append_getLast hne]
        rw [hg]
      simp only [stripFuel, h0, if_pos]
      rw [ih l.dropLast (by
        rw [List.length_dropLast]
        omega)]
      conv_rhs => rw [hdec]
      rw [stripTrailingZeros_concat_zero]
    · simp only [stripFuel, h0, if_neg, if_false]
      rw [stripTrailingZeros_of_getLast l h0]

theorem from_i64_unfold (v : Int) (hv : v ≠ 0) :
    BigInt.from_i64 v = ⟨decide (v < 0), toDigits v.natAbs⟩ := by
  have hn : v.natAbs ≠ 0 := Int.natAbs_ne_zero.mpr hv
  have hstrip : stripTrailingZeros (toDigits v.natAbs) = toDigits v.natAbs :=
    stripTrailingZeros_of_getLast _ (toDigits_getLast_ne_zero _ hn)
  have hne : toDigits v.natAbs ≠ [] := by
    rw [toDigits_pos _ hn]
    simp
  rw [BigInt.from_i64, if_neg hv]
  simp only [BigInt.normalize, hstrip]
  congr 1
  simp [List.isEmpty_iff, hne]

-- ## Claim theorems

/-- C1: for every `i64` value `v`, `from_i64 v` has its sign flag set
exactly when `v < 0`, its limb list is the base-10^9 expansion of `|v|`
produced by the repeated mod/div loop (least significant limb first),
and the signed value the result denotes equals `v`. -/
theorem from_i64_spec (v : Int) (h1 : -(2 ^ 63) ≤ v) (h2 : v < 2 ^ 63) :
    ((BigInt.from_i64 v).neg = true ↔ v < 0) ∧
    (BigInt.from_i64 v).digits = toDigits v.natAbs ∧
    (BigInt.from_i64 v).toInt = v := by
  by_cases hv : v = 0
  · subst hv
    refine ⟨by simp [BigInt.from_i64, BigInt.zero], ?_, ?_⟩
    · simp [BigInt.from_i64, BigInt.zero, toDigits_zero]
    · simp [BigInt.from_i64, BigInt.zero, BigInt.toInt, limbsVal]
  · rw [from_i64_unfold v hv]
    refine ⟨by simp [decide_eq_true_iff], rfl, ?_⟩
    rw [BigInt.toInt]
    simp only [limbsVal_toDigits]
    by_cases hneg : v < 0
    · rw [if_pos (by simpa using hneg)]
      omega
    · rw [if_neg (by simpa using hneg)]
      omega

/-- Witness for C1 at `v = -5`. -/
theorem from_i64_spec_witness :
    ((BigInt.from_i64 (-5)).neg = true ↔ (-5 : Int) < 0) ∧
    (BigInt.from_i64 (-5)).digits = toDigits (Int.natAbs (-5)) ∧
    (BigInt.from_i64 (-5)).toInt = -5 :=
  from_i64_spec (-5) (by norm_num) (by norm_num)

/-- C2: every `BigInt` produced by a public constructor (`zero`, `one`,
`from_i64`) satisfies the three representation invariants: nonzero most
significant limb, all limbs below `BASE`, and `neg = false` when the
limb list is empty. -/
theorem constructor_invariants (v : Int) (h1 : -(2 ^ 63) ≤ v) (h2 : v < 2 ^ 63) :
    BigInt.zero.invariants ∧ BigInt.one.invariants ∧
      (BigInt.from_i64 v).invariants := by
  refine ⟨?_, ?_, ?_⟩
  · refine ⟨by simp [BigInt.zero], by simp [BigInt.zero], fun _ => rfl⟩
  · exact ⟨by simp [BigInt.one], by simp [BigInt.one, BASE], by simp [BigInt.one]⟩
  · by_cases hv : v = 0
    · subst hv
      exact ⟨by simp [BigInt.from_i64, BigInt.zero],
        by simp [BigInt.from_i64, BigInt.zero], fun _ => rfl⟩
    · have hn : v.natAbs ≠ 0 := Int.natAbs_ne_zero.mpr hv
      rw [from_i64_unfold v hv]
      refine ⟨toDigits_getLast_ne_zero _ hn, toDigits_lt_base _, fun h => ?_⟩
      exfalso
      rw [toDigits_pos _ hn] at h
      simp at h

/-- Witness for C2 at `v = 42`. -/
theorem constructor_invariants_witness :
    BigInt.zero.invariants ∧ BigInt.one.invariants ∧
      (BigInt.from_i64 42).invariants :=
  constructor_invariants 42 (by norm_num) (by norm_num)

/-- C3: `from_i64 (i64::MIN)` is well defined (the magnitude `2^63` is
taken in unsigned arithmetic, so nothing overflows): its sign flag is
true, its limbs are the base-10^9 digits of `2^63`, their value is
`2^63`, and the result denotes `-2^63`. -/
theorem from_i64_min_spec :
    (BigInt.from_i64 (-(2 ^ 63))).neg = true ∧
    (BigInt.from_i64 (-(2 ^ 63))).digits = [854775808, 223372036, 9] ∧
    limbsVal (BigInt.from_i64 (-(2 ^ 63))).digits = 2 ^ 63 ∧
    (BigInt.from_i64 (-(2 ^ 63))).toInt = -(2 ^ 63) := by
  have hv : (-(2 ^ 63) : Int) ≠ 0 := by norm_num
  have habs : ((-(2 ^ 63) : Int)).natAbs = 2 ^ 63 := by
    rw [Int.natAbs_neg]
    norm_num
  have hneg : (decide ((-(2 ^ 63) : Int) < 0)) = true := by decide
  have hdig : toDigits (2 ^ 63) = [854775808, 223372036, 9] := by
    rw [show (2 ^ 63 : Nat) = 9223372036854775808 by norm_num]
    rw [toDigits_eval]
    norm_num [BASE]
    rw [toDigits_eval]
    norm_num [BASE]
    rw [toDigits_eval]
    norm_num [BASE]
    rw [toDigits_eval]
    simp
  refine ⟨?_, ?_, ?_, ?_⟩
  · rw [from_i64_unfold _ hv, hneg]
  · rw [from_i64_unfold _ hv, habs, hdig]
  · rw [from_i64_unfold _ hv, habs]
    simp [limbsVal_toDigits]
  · rw [from_i64_unfold _ hv, BigInt.toInt, habs]
    simp only [hneg, if_true, limbsVal_toDigits]
    norm_num

/-- C4: `normalize` removes exactly the trailing zero limbs (the input
digits are the output digits followed by some number of zeros, and the
output never ends in a zero limb), forces the sign to false when the
stripped digit list is empty, and otherwise leaves the sign unchanged.
It is a total function: it is defined for every `BigInt`. -/
theorem normalize_spec (v : BigInt) :
    (∃ k, v.digits = v.normalize.digits ++ List.replicate k 0) ∧
    v.normalize.digits.getLast? ≠ some 0 ∧
    (v.normalize.digits = [] → v.normalize.neg = false) ∧
    (v.normalize.digits ≠ [] → v.normalize.neg = v.neg) := by
  refine ⟨?_, ?_, ?_, ?_⟩
  · rw [normalize_digits]
    exact stripTrailingZeros_append_replicate v.digits
  · rw [normalize_digits]
    exact stripTrailingZeros_getLast_ne_zero v.digits
  · intro h
    rw [normalize_digits] at h
    rw [normalize_neg, h]
    simp
  · intro h
    rw [normalize_digits] at h
    rw [normalize_neg]
    simp [List.isEmpty_iff, h]

/-- C5: `normalize` is idempotent: normalizing twice gives the same
`BigInt` as normalizing once. -/
theorem normalize_idempotent (v : BigInt) :
    v.normalize.normalize = v.normalize := by
  simp only [BigInt.normalize, stripTrailingZeros_idem]
  by_cases h : (stripTrailingZeros v.digits).isEmpty <;> simp [h]

/-- C6: `from_i64 0` is the canonical zero: it equals `zero()` and has
an empty limb list and sign flag false. -/
theorem from_i64_zero_spec :
    BigInt.from_i64 0 = BigInt.zero ∧ (BigInt.from_i64 0).digits = [] ∧
      (BigInt.from_i64 0).neg = false :=
  ⟨rfl, rfl, rfl⟩

/-- C7: `from_i64 1002323809800980` has sign flag false and limbs
exactly `[809800980, 1002323]`, least significant first. -/
theorem from_i64_concrete :
    (BigInt.from_i64 1002323809800980).neg = false ∧
    (BigInt.from_i64 1002323809800980).digits = [809800980, 1002323] := by
  have hv : (1002323809800980 : Int) ≠ 0 := by norm_num
  rw [from_i64_unfold _ hv]
  refine ⟨by decide, ?_⟩
  rw [show ((1002323809800980 : Int)).natAbs = 1002323809800980 from rfl]
  rw [toDigits_eval]
  norm_num [BASE]
  rw [toDigits_eval]
  norm_num [BASE]
  rw [toDigits_eval]
  simp

/-- C8: both loops terminate on every input.  The limb-extraction loop
of `from_i64` terminates within `x` iterations (its fuelled version
agrees with the total function once the fuel covers the input) because
the remaining value strictly decreases (`x / BASE < x` for `x ≠ 0`),
and the stripping loop of `normalize` terminates within `length`
iterations because each pop strictly decreases the list length. -/
theorem loops_terminate :
    (∀ fuel x : Nat, x ≤ fuel → toDigitsFuel fuel x = toDigits x) ∧
    (∀ x : Nat, x ≠ 0 → x / BASE < x) ∧
    (∀ (fuel : Nat) (l : List Nat), l.length ≤ fuel →
      stripFuel fuel l = stripTrailingZeros l) ∧
    (∀ l : List Nat, l ≠ [] → l.dropLast.length < l.length) := by
  refine ⟨toDigitsFuel_eq, ?_, stripFuel_eq, ?_⟩
  · intro x hx
    exact Nat.div_lt_self (Nat.pos_of_ne_zero hx) (by norm_num [BASE])
  · intro l hl
    rw [List.length_dropLast]
    have : l.length ≠ 0 := fun h => hl (List.eq_nil_of_length_eq_zero h)
    omega

/-- C9: `normalize` preserves the denoted signed value. -/
theorem normalize_preserves_toInt (v : BigInt) :
    v.normalize.toInt = v.toInt := by
  obtain ⟨k, hk⟩ := stripTrailingZeros_append_replicate v.digits
  have hval : limbsVal v.digits = limbsVal (stripTrailingZeros v.digits) := by
    conv_lhs => rw [hk]
    rw [limbsVal_append, limbsVal_replicate_zero]
    ring
  rw [BigInt.toInt, BigInt.toInt, normalize_digits, normalize_neg, ← hval]
  by_cases h : (stripTrailingZeros v.digits).isEmpty
  · have h0 : stripTrailingZeros v.digits = [] := List.isEmpty_iff.mp h
    have hz : limbsVal v.digits = 0 := by
      rw [hval, h0]
      rfl
    rw [if_neg (by simp [h])]
    by_cases hn : v.neg = true <;> simp [hn, hz]
  · rw [if_neg h]

/-- C10: the free function `add` on `u64` returns the exact
mathematical sum whenever that sum fits in a `u64`, and overflows
(returns no value) exactly when the sum exceeds `u64::MAX`, so it is
not total over its input type. -/
theorem add_spec (l r : Nat) (hl : l < 2 ^ 64) (hr : r < 2 ^ 64) :
    (l + r < 2 ^ 64 → add l r = some (l + r)) ∧
    (2 ^ 64 ≤ l + r → add l r = none) := by
  constructor
  · intro h
    rw [add, if_pos h]
  · intro h
    rw [add, if_neg (by omega)]

/-- Witness for C10: `add 2 2 = some 4`, while adding 1 to `u64::MAX`
overflows. -/
theorem add_spec_witness :
    add 2 2 = some 4 ∧ add (2 ^ 64 - 1) 1 = none :=
  ⟨(add_spec 2 2 (by norm_num) (by norm_num)).1 (by norm_num),
   (add_spec (2 ^ 64 - 1) 1 (by norm_num) (by norm_num)).2 (by norm_num)⟩
